import Mathlib

/-!
Verification of the BasicAer python qasm simulator evolution engine
(`qiskit/providers/basicaer/qasm_simulator.py`).

The Python code is shallowly embedded: classical memory and classical
register are unbounded nonnegative integers (`Nat`), state vectors are
functions `Nat → ℂ` on basis indices below `2 ^ n` (little endian: qubit `i`
is bit `i` of the basis index), instructions are modelled by the data each
dispatcher branch actually reads, and fallible code returns `Except`.
-/

namespace QasmSim

/-- Masked single-bit write, the pattern
`(x & ~(1 << b)) | (int(outcome) << b)` used by `_update_state_after_measure`
(lines 274-281), the `bfunc` branch (lines 666-672) and `_add_sample_measure`
(lines 235-236).  `Nat` has no complement, but on unbounded nonnegative
integers `x & ~m = x ^^^ (x &&& m)`, which is what we write here.  The
outcome is always the integer 0 or 1 in the source, so it is a `Bool` here
and `cond o 1 0` is its integer value. -/
def maskedWrite (x b : Nat) (o : Bool) : Nat :=
  (x ^^^ (x &&& (1 <<< b))) ||| ((cond o 1 0) <<< b)

/-- Classical part of `_update_state_after_measure` (qasm_simulator.py lines
274-281): write the measurement outcome into classical-memory bit `cmembit`
with a masked write, and, when a classical-register bit was given, also into
classical-register bit `cregbit`.  Returns the pair
(new classical memory, new classical register). -/
def updateClassicalAfterMeasure (cmem creg cmembit : Nat) (outcome : Bool)
    (cregbit : Option Nat) : Nat × Nat :=
  (maskedWrite cmem cmembit outcome,
   match cregbit with
   | some rb => maskedWrite creg rb outcome
   | none => creg)

/-- Conditional field of an instruction (already hex-decoded): either a single
classical-register bit index, or a masked record `{mask, val}` compared
against classical memory. -/
inductive Conditional where
  | int (b : Nat)
  | masked (mask val : Nat)

/-- Loop of `_run_single_shot` lines 597-599: shift `mask` and `value` right
together until the mask is odd.  The source loop runs only under the guard
`mask > 0`; the `mask = 0` equation here only makes the recursion total and
is never reached from `condPasses`. -/
def alignShift (mask value : Nat) : Nat × Nat :=
  if h : mask = 0 then (mask, value)
  else if mask % 2 = 0 then alignShift (mask / 2) (value / 2)
  else (mask, value)
termination_by mask
decreasing_by exact Nat.div_lt_self (Nat.pos_of_ne_zero h) Nat.one_lt_two

/-- Position of the least significant set bit of `m` (number of trailing zero
bits), the amount by which the source loop ends up shifting.  Zero on `m = 0`,
where no set bit exists. -/
def lsbPos (m : Nat) : Nat :=
  if h : m = 0 then 0
  else if m % 2 = 0 then lsbPos (m / 2) + 1
  else 0
termination_by m
decreasing_by exact Nat.div_lt_self (Nat.pos_of_ne_zero h) Nat.one_lt_two

/-- Conditional gating from the head of `_run_single_shot` (lines 586-601):
returns `true` when the instruction is executed and `false` when it is
skipped.  An integer conditional checks one classical-register bit; a masked
conditional (when the mask is positive) masks the classical memory, shifts
mask and value down together until the mask is odd, and compares with `val`. -/
def condPasses (creg cmem : Nat) : Conditional → Bool
  | .int b => ((creg >>> b) &&& 1) == 1
  | .masked mask val =>
      if 0 < mask then (alignShift mask (cmem &&& mask)).2 == val
      else true

/-- Instruction names after which measure sampling stays allowed
(`_validate_measure_sampling`, line 405). -/
def allowedTail : List String := ["measure", "barrier", "id", "u0"]

/-- Scan loop of `_validate_measure_sampling` (lines 393-412): walk the
instruction names carrying the `measure_flag`; any `reset` forbids sampling,
and once a measure was seen any name outside `allowedTail` forbids it. -/
def scanSampling : List String → Bool → Bool
  | [], _ => true
  | instr :: rest, measureFlag =>
    if instr = "reset" then false
    else if measureFlag then
      if instr ∈ allowedTail then scanSampling rest measureFlag else false
    else if instr = "measure" then scanSampling rest true
    else scanSampling rest measureFlag

/-- `_validate_measure_sampling` (lines 374-412): `false` for at most one
shot; else the experiment config's `allows_measure_sampling` flag when
present; else the result of the instruction scan. -/
def validateMeasureSampling (shots : Nat) (allows : Option Bool)
    (instrs : List String) : Bool :=
  if shots ≤ 1 then false
  else
    match allows with
    | some b => b
    | none => scanSampling instrs false

/-- Instructions strictly after the first `measure` (empty when there is no
measure). -/
def afterFirstMeasure (l : List String) : List String :=
  (l.dropWhile (fun s => ¬ (s = "measure"))).drop 1

/-- Fatal error kinds of the simulator (section 7 of the design; every
`BasicAerError` raise site in the source falls in one of these). -/
inductive SimError where
  | dimensionMismatch
  | notNormalised
  | invalidInstruction
  | unrecognizedOperation
deriving DecidableEq

/-- Relation dispatch of the `bfunc` branch (lines 650-663): evaluate the
relation of the comparison value against zero, failing on an unknown
relation string. -/
def evalRelation (relation : String) (compared : Int) : Except SimError Bool :=
  if relation = "==" then .ok (decide (compared = 0))
  else if relation = "!=" then .ok (decide (compared ≠ 0))
  else if relation = "<" then .ok (decide (compared < 0))
  else if relation = "<=" then .ok (decide (compared ≤ 0))
  else if relation = ">" then .ok (decide (compared > 0))
  else if relation = ">=" then .ok (decide (compared ≥ 0))
  else .error .invalidInstruction

/-- The `bfunc` branch of `_run_single_shot` (lines 640-672): the comparison
value is `(classical_register & mask) - val` (a possibly negative integer),
the relation of it against zero gives the outcome bit, which is masked-written
into classical-register bit `cregbit` and, when a `memory` field is present,
into classical-memory bit `cmembit`.  Returns
(new classical memory, new classical register). -/
def applyBfunc (cmem creg mask : Nat) (relation : String) (val cregbit : Nat)
    (cmembit : Option Nat) : Except SimError (Nat × Nat) :=
  let compared : Int := ((creg &&& mask : Nat) : Int) - (val : Int)
  match evalRelation relation compared with
  | .error e => .error e
  | .ok outcome =>
    .ok (match cmembit with
         | some mb => maskedWrite cmem mb outcome
         | none => cmem,
         maskedWrite creg cregbit outcome)

/-- The claim's reading of `bfunc`, kept only to compare against
`applyBfunc`: identical except that the comparison value is computed from the
classical MEMORY, `(classical_memory & mask) - val`, as the spec sentence
states. -/
def applyBfuncClaimed (cmem creg mask : Nat) (relation : String)
    (val cregbit : Nat) (cmembit : Option Nat) : Except SimError (Nat × Nat) :=
  let compared : Int := ((cmem &&& mask : Nat) : Int) - (val : Int)
  match evalRelation relation compared with
  | .error e => .error e
  | .ok outcome =>
    .ok (match cmembit with
         | some mb => maskedWrite cmem mb outcome
         | none => cmem,
         maskedWrite creg cregbit outcome)

/-- Shape of a split-mode simulator instance at the end of a shot: its final
classical memory word together with its two children when it forked at a
non-degenerate measurement (`_substates`, empty for a leaf). -/
inductive SplitTree where
  | leaf (cmem : Nat)
  | node (cmem : Nat) (child0 child1 : SplitTree)

/-- Tail of `_run_single_shot` (lines 678-691) in split mode with
`sample_measure` false: if the instance forked, first recurse into
`_substates[0]` then `_substates[1]` (both appending into the shared `memory`
list), and afterwards fall through to the unconditional
`memory.append(hex(classical_memory))` guarded only by
`number_of_cmembits > 0`. -/
def collectShotMemory (cmembits : Nat) : SplitTree → List Nat → List Nat
  | .leaf cmem, memory =>
    if 0 < cmembits then memory ++ [cmem] else memory
  | .node cmem c0 c1, memory =>
    let memory0 := collectShotMemory cmembits c0 memory
    let memory1 := collectShotMemory cmembits c1 memory0
    if 0 < cmembits then memory1 ++ [cmem] else memory1

/-- Lexicographic tuple order used by python's `sorted` on the
`(qubit, cmembit)` measure pairs. -/
def pairLe (p q : Nat × Nat) : Prop :=
  p.1 < q.1 ∨ (p.1 = q.1 ∧ p.2 ≤ q.2)

instance : DecidableRel pairLe := fun p q => by
  unfold pairLe
  exact inferInstance

/-- `sorted(measure_params)` (line 233): stable sort by the lexicographic
tuple order. -/
def sortPairs (l : List (Nat × Nat)) : List (Nat × Nat) :=
  List.insertionSort pairLe l

/-- Inner loop of `_add_sample_measure` (lines 232-236): walk
`enumerate(sorted(measure_params))` with counter `count`, extract bit `count`
of the drawn sample as `(sample & (1 << count)) >> count` and masked-write it
into classical-memory slot `cmembit`. -/
def expandSampleLoop (sample : Nat) : List (Nat × Nat) → Nat → Nat → Nat
  | [], _, cmemAcc => cmemAcc
  | (_q, cmembit) :: rest, count, cmemAcc =>
    expandSampleLoop sample rest (count + 1)
      (maskedWrite cmemAcc cmembit (((sample &&& (1 <<< count)) >>> count) == 1))

/-- Per-sample expansion of `_add_sample_measure`: start from the pre-existing
classical memory and run the enumerate loop over the sorted pairs. -/
def expandSample (cmem : Nat) (pairs : List (Nat × Nat)) (sample : Nat) : Nat :=
  expandSampleLoop sample (sortPairs pairs) 0 cmem

/-- The distinct measured qubits in ascending order (dedup of the first
components of the sorted pair list). -/
def distinctSortedQubits (pairs : List (Nat × Nat)) : List Nat :=
  ((sortPairs pairs).map Prod.fst).dedup

/-- The claim's expansion, kept only to compare with `expandSample`: each pair
`(q, cmembit)` receives bit `i` of the sample where `i` is the rank of `q`
among the distinct measured qubits in ascending order. -/
def specExpandLoop (sample : Nat) (qs : List Nat) :
    List (Nat × Nat) → Nat → Nat
  | [], cmemAcc => cmemAcc
  | (q, cmembit) :: rest, cmemAcc =>
    specExpandLoop sample qs rest
      (maskedWrite cmemAcc cmembit (((sample >>> qs.indexOf q) &&& 1) == 1))

def specExpandSample (cmem : Nat) (pairs : List (Nat × Nat)) (sample : Nat) : Nat :=
  specExpandLoop sample (distinctSortedQubits pairs) (sortPairs pairs) cmem

/-- The L2 norm computed by `np.linalg.norm` on a complex vector. -/
noncomputable def l2norm (v : List ℂ) : ℝ :=
  Real.sqrt ((v.map Complex.normSq).sum)

/-- Rounding to 12 decimal places, `round(norm, 12)` (line 342). -/
noncomputable def round12 (x : ℝ) : ℝ :=
  ((round (x * 10 ^ 12) : ℤ) : ℝ) / 10 ^ 12

/-- Resolution of `initial_statevector` in `_set_options` (lines 331-338):
backend options first, qobj config second. -/
def resolveInitialStatevector (backendOpt qobjOpt : Option (List ℂ)) :
    Option (List ℂ) :=
  match backendOpt with
  | some v => some v
  | none => qobjOpt

open Classical in

/-- Normalisation check of `_set_options` (lines 339-344): when an initial
statevector was resolved, fail unless its norm rounded to 12 decimals is 1. -/
noncomputable def checkNormalized (init : Option (List ℂ)) :
    Except SimError Unit :=
  match init with
  | none => .ok ()
  | some v => if round12 (l2norm v) = 1 then .ok () else .error .notNormalised

/-- `_validate_initial_statevector` (lines 311-321): when an initial
statevector is set, fail unless its length is `2 ^ n`. -/
def validateInitialStatevector (init : Option (List ℂ)) (n : Nat) :
    Except SimError Unit :=
  match init with
  | none => .ok ()
  | some v => if v.length = 2 ^ n then .ok () else .error .dimensionMismatch

/-- `_initialize_statevector` (lines 352-363): the start state of a shot is a
copy of the configured initial statevector, or the basis state with
amplitude 1 at index 0. -/
def initializeStatevector (init : Option (List ℂ)) (n : Nat) : List ℂ :=
  match init with
  | none => (List.replicate (2 ^ n) (0 : ℂ)).set 0 1
  | some v => v

/-- Validation-and-start pipeline of `run` / `run_experiment` for one
experiment: resolve the initial statevector, run the `_set_options` norm
check, then the dimension check, then produce the list of per-shot initial
statevectors (the shot loop of `run_experiment` re-initialises the
statevector from the same configured vector on every iteration). -/
noncomputable def runExperimentStart (backendOpt qobjOpt : Option (List ℂ))
    (n shots : Nat) : Except SimError (List (List ℂ)) :=
  let init := resolveInitialStatevector backendOpt qobjOpt
  match checkNormalized init with
  | .error e => .error e
  | .ok _ =>
    match validateInitialStatevector init n with
    | .error e => .error e
    | .ok _ => .ok (List.replicate shots (initializeStatevector init n))

/-- Contraction of a 2×2 matrix with the rank-n state tensor on the axis of
`qubit` (the einsum performed by `_add_unitary_single`, lines 147-163, with
the index pattern from `basicaertools.einsum_vecmul_index`): in the
little-endian flat view, the new amplitude at basis index `i` sums the matrix
row selected by bit `qubit` of `i` against the amplitudes at `i` with that
bit forced to 0 and to 1. -/
noncomputable def applySingle (g : Bool → Bool → ℂ) (qubit : Nat)
    (ψ : Nat → ℂ) : Nat → ℂ :=
  fun i =>
    g (i.testBit qubit) false * ψ (maskedWrite i qubit false) +
    g (i.testBit qubit) true * ψ (maskedWrite i qubit true)

/-- Contraction of a 4×4 matrix reshaped to (2,2,2,2) with the state tensor
on the axes of `qubit0` and `qubit1` (`_add_unitary_two`, lines 164-180). -/
noncomputable def applyTwo (g : Bool × Bool → Bool × Bool → ℂ)
    (qubit0 qubit1 : Nat) (ψ : Nat → ℂ) : Nat → ℂ :=
  fun i =>
    g (i.testBit qubit0, i.testBit qubit1) (false, false) *
      ψ (maskedWrite (maskedWrite i qubit0 false) qubit1 false) +
    g (i.testBit qubit0, i.testBit qubit1) (false, true) *
      ψ (maskedWrite (maskedWrite i qubit0 false) qubit1 true) +
    g (i.testBit qubit0, i.testBit qubit1) (true, false) *
      ψ (maskedWrite (maskedWrite i qubit0 true) qubit1 false) +
    g (i.testBit qubit0, i.testBit qubit1) (true, true) *
      ψ (maskedWrite (maskedWrite i qubit0 true) qubit1 true)

/-- Modelled from the spec: the index-pattern helper
`basicaertools.einsum_vecmul_index` called by `_add_unitary_single` and
`_add_unitary_two` is not under `src/`; per section 4.1 of the design, gate
application fails with an `InvalidInstruction` error when a gate qubit index
is `≥ n` or the two-qubit indices coincide. -/
def validateGateIndices (gateIndices : List Nat) (n : Nat) :
    Except SimError Unit :=
  if gateIndices.any (fun q => n ≤ q) then .error .invalidInstruction
  else if gateIndices.Nodup then .ok ()
  else .error .invalidInstruction

/-- `_add_unitary_single` with the index validation of its helper. -/
noncomputable def addUnitarySingle (n : Nat) (g : Bool → Bool → ℂ)
    (qubit : Nat) (ψ : Nat → ℂ) : Except SimError (Nat → ℂ) :=
  match validateGateIndices [qubit] n with
  | .error e => .error e
  | .ok _ => .ok (applySingle g qubit ψ)

/-- `_add_unitary_two` with the index validation of its helper. -/
noncomputable def addUnitaryTwo (n : Nat) (g : Bool × Bool → Bool × Bool → ℂ)
    (qubit0 qubit1 : Nat) (ψ : Nat → ℂ) : Except SimError (Nat → ℂ) :=
  match validateGateIndices [qubit0, qubit1] n with
  | .error e => .error e
  | .ok _ => .ok (applyTwo g qubit0 qubit1 ψ)

/-- Marginal probability of outcome `b` on `qubit`
(`np.sum(np.abs(statevector) ** 2, axis=...)` in `_get_measure_outcome`,
lines 192-195): sum of squared amplitude magnitudes over the basis indices
whose bit `qubit` equals the outcome. -/
noncomputable def measureProb (n qubit : Nat) (ψ : Nat → ℂ) (b : Bool) : ℝ :=
  ∑ i ∈ (Finset.range (2 ^ n)).filter (fun i => i.testBit qubit = b),
    Complex.normSq (ψ i)

open Classical in

/-- `_get_measure_outcome` (lines 182-201): with `u` the drawn uniform
random number, return outcome 0 with its probability when
`u < probabilities[0]`, else outcome 1 with its probability. -/
noncomputable def getMeasureOutcome (n qubit : Nat) (ψ : Nat → ℂ) (u : ℝ) :
    Bool × ℝ :=
  if u < measureProb n qubit ψ false then (false, measureProb n qubit ψ false)
  else (true, measureProb n qubit ψ true)

/-- The 2×2 update matrix of `_add_qasm_reset` (lines 304-309):
`[[1/sqrt(p), 0], [0, 0]]` for outcome 0 and `[[0, 1/sqrt(p)], [0, 0]]` for
outcome 1 (row `r`, column `c`; the only nonzero entry sits at row 0,
column = outcome). -/
noncomputable def resetGate (outcome : Bool) (p : ℝ) : Bool → Bool → ℂ :=
  fun r c =>
    if r = false ∧ c = outcome then ((1 / Real.sqrt p : ℝ) : ℂ) else 0

/-- `_add_qasm_reset` (lines 291-309): sample an outcome with
`_get_measure_outcome` and apply the corresponding reset matrix through the
one-qubit tensor engine. -/
noncomputable def addQasmReset (n qubit : Nat) (ψ : Nat → ℂ) (u : ℝ) :
    Nat → ℂ :=
  applySingle
    (resetGate (getMeasureOutcome n qubit ψ u).1 (getMeasureOutcome n qubit ψ u).2)
    qubit ψ

/-- The reset branch of the dispatcher acting on the full per-shot state:
`_add_qasm_reset` touches only the statevector, never the classical memory or
register. -/
noncomputable def resetStep (n qubit : Nat) (ψ : Nat → ℂ) (u : ℝ)
    (cmem creg : Nat) : (Nat → ℂ) × Nat × Nat :=
  (addQasmReset n qubit ψ u, cmem, creg)

/-- Concrete one-qubit state |1⟩ used by the reset witness. -/
noncomputable def resetWitnessState : Nat → ℂ :=
  fun i => if i = 1 then 1 else 0

theorem one_shiftLeft_testBit (b j : Nat) :
    ((1 : Nat) <<< b).testBit j = decide (j = b) := by
  rw [Nat.shiftLeft_eq, one_mul, Nat.testBit_two_pow]
  simp [eq_comm]

/-- A masked write sets bit `b` to the outcome and leaves every other bit
unchanged. -/
theorem testBit_maskedWrite (x b : Nat) (o : Bool) (j : Nat) :
    (maskedWrite x b o).testBit j = if j = b then o else x.testBit j := by
  unfold maskedWrite
  rw [Nat.testBit_lor, Nat.testBit_xor, Nat.testBit_land, one_shiftLeft_testBit,
    Nat.testBit_shiftLeft]
  rcases eq_or_ne j b with h | h
  · subst h
    cases o <;> simp
  · simp only [h, decide_False, Bool.and_false, Bool.bne_false, if_neg h]
    have hj : ¬ (j - b = 0) ∨ ¬ (b ≤ j) := by omega
    cases o
    · simp
    · rcases hj with hj | hj <;>
        simp [Nat.testBit_one_eq_true_iff_self_eq_zero, hj]

/-- Claim C9: every classical write performed by a measurement — setting
classical-memory bit `cmembit` and, when a register target is given,
classical-register bit `cregbit` to the sampled outcome — leaves all other
bits of the classical memory and of the classical register unchanged, for
every prior value of those two integers. -/
theorem measure_classical_write_frame (cmem creg cmembit : Nat) (outcome : Bool)
    (cregbit : Option Nat) :
    ((updateClassicalAfterMeasure cmem creg cmembit outcome cregbit).1.testBit cmembit
      = outcome) ∧
    (∀ j, j ≠ cmembit →
      (updateClassicalAfterMeasure cmem creg cmembit outcome cregbit).1.testBit j
        = cmem.testBit j) ∧
    (∀ rb, cregbit = some rb →
      ((updateClassicalAfterMeasure cmem creg cmembit outcome cregbit).2.testBit rb
        = outcome) ∧
      (∀ j, j ≠ rb →
        (updateClassicalAfterMeasure cmem creg cmembit outcome cregbit).2.testBit j
          = creg.testBit j)) ∧
    (cregbit = none →
      (updateClassicalAfterMeasure cmem creg cmembit outcome cregbit).2 = creg) := by
  refine ⟨?_, ?_, ?_, ?_⟩
  · simp [updateClassicalAfterMeasure, testBit_maskedWrite]
  · intro j hj
    simp [updateClassicalAfterMeasure, testBit_maskedWrite, hj]
  · rintro rb rfl
    exact ⟨by simp [updateClassicalAfterMeasure, testBit_maskedWrite],
      fun j hj => by simp [updateClassicalAfterMeasure, testBit_maskedWrite, hj]⟩
  · rintro rfl
    rfl

theorem measure_classical_write_frame_witness :
    (updateClassicalAfterMeasure 10 7 0 true (some 3)).1.testBit 1 = true ∧
    (updateClassicalAfterMeasure 10 7 0 true (some 3)).2.testBit 0 = true := by
  obtain ⟨-, hmem, hreg, -⟩ :=
    measure_classical_write_frame 10 7 0 true (some 3)
  exact ⟨(hmem 1 (by decide)).trans (by decide),
    ((hreg 3 rfl).2 0 (by decide)).trans (by decide)⟩

theorem alignShift_eq (m : Nat) (hm : m ≠ 0) (v : Nat) :
    alignShift m v = (m >>> lsbPos m, v >>> lsbPos m) := by
  induction m using Nat.strong_induction_on generalizing v with
  | _ m ih =>
    rw [alignShift, lsbPos, dif_neg hm, dif_neg hm]
    rcases Nat.eq_zero_or_pos (m % 2) with he | ho
    · have hhalf : m / 2 ≠ 0 := by omega
      rw [if_pos he, if_pos he, ih (m / 2) (Nat.div_lt_self (Nat.pos_of_ne_zero hm)
        Nat.one_lt_two) hhalf]
      have hshift : ∀ x k : Nat, (x / 2) >>> k = x >>> (k + 1) := by
        intro x k
        rw [Nat.shiftRight_eq_div_pow, Nat.shiftRight_eq_div_pow,
          Nat.div_div_eq_div_mul, pow_succ, mul_comm 2 (2 ^ k)]
      rw [hshift, hshift]
    · have he : ¬ (m % 2 = 0) := by omega
      rw [if_neg he, if_neg he]
      simp

/-- Claim C6: an instruction with integer conditional `b` executes iff bit `b`
of the classical register is 1; an instruction with masked conditional
`{mask, val}` (the mask having a least significant set bit, i.e. being
positive) executes iff the masked classical memory shifted right by the
position of that bit equals the decoded `val`. -/
theorem conditional_semantics (creg cmem b mask val : Nat) :
    (condPasses creg cmem (Conditional.int b) = true ↔ creg.testBit b = true) ∧
    (0 < mask →
      (condPasses creg cmem (Conditional.masked mask val) = true ↔
        (cmem &&& mask) >>> lsbPos mask = val)) := by
  constructor
  · simp only [condPasses, beq_iff_eq, Nat.and_one_is_mod,
      Nat.shiftRight_eq_div_pow, Nat.testBit_to_div_mod, decide_eq_true_eq]
  · intro hmask
    simp only [condPasses, if_pos hmask,
      alignShift_eq mask (Nat.pos_iff_ne_zero.mp hmask), beq_iff_eq]

theorem conditional_semantics_witness :
    condPasses 2 3 (Conditional.int 1) = true ∧
    condPasses 2 3 (Conditional.masked 6 1) = true := by
  refine ⟨(conditional_semantics 2 3 1 6 1).1.mpr (by decide),
    ((conditional_semantics 2 3 1 6 1).2 (by decide)).mpr ?_⟩
  have h6 : lsbPos 6 = 1 := by simp [lsbPos]
  rw [h6]
  decide

/-- Claim C10: a masked conditional whose mask decodes to 0 never skips the
instruction, whatever `val` and the classical memory hold (the source guard
`if mask > 0` bypasses the whole comparison). -/
theorem zero_mask_conditional_always_executes (creg cmem val : Nat) :
    condPasses creg cmem (Conditional.masked 0 val) = true := rfl

theorem reset_not_allowedTail (l : List String) (h : ∀ s ∈ l, s ∈ allowedTail) :
    "reset" ∉ l := by
  intro hmem
  have := h _ hmem
  simp [allowedTail] at this

theorem scanSampling_cons_false (instr : String) (rest : List String) :
    scanSampling (instr :: rest) false =
      if instr = "reset" then false
      else if instr = "measure" then scanSampling rest true
      else scanSampling rest false := by
  simp [scanSampling]

theorem scanSampling_cons_true (instr : String) (rest : List String) :
    scanSampling (instr :: rest) true =
      if instr = "reset" then false
      else if instr ∈ allowedTail then scanSampling rest true
      else false := by
  simp [scanSampling]

theorem scanSampling_true_iff (l : List String) :
    scanSampling l true = true ↔ ∀ s ∈ l, s ∈ allowedTail := by
  induction l with
  | nil => simp [scanSampling]
  | cons instr rest ih =>
    by_cases hr : instr = "reset"
    · subst hr
      simp [scanSampling, allowedTail]
    · by_cases ha : instr ∈ allowedTail
      · simp [scanSampling, hr, ha, ih]
      · simp [scanSampling, hr, ha]

theorem scanSampling_false_iff (l : List String) :
    scanSampling l false = true ↔
      ("reset" ∉ l ∧ ∀ s ∈ afterFirstMeasure l, s ∈ allowedTail) := by
  induction l with
  | nil => simp [scanSampling, afterFirstMeasure]
  | cons instr rest ih =>
    by_cases hr : instr = "reset"
    · subst hr
      simp [scanSampling]
    · by_cases hm : instr = "measure"
      · subst hm
        have hdrop : afterFirstMeasure ("measure" :: rest) = rest := by
          simp [afterFirstMeasure, List.dropWhile]
        rw [hdrop, scanSampling_cons_false, if_neg hr, if_pos rfl,
          scanSampling_true_iff]
        constructor
        · intro h
          refine ⟨?_, h⟩
          simp only [List.mem_cons, not_or]
          exact ⟨by decide, reset_not_allowedTail rest h⟩
        · exact fun h => h.2
      · have hdrop : afterFirstMeasure (instr :: rest) = afterFirstMeasure rest := by
          simp [afterFirstMeasure, List.dropWhile, hm]
        rw [hdrop, scanSampling_cons_false, if_neg hr, if_neg hm, ih]
        constructor
        · rintro ⟨h1, h2⟩
          refine ⟨?_, h2⟩
          simp only [List.mem_cons, not_or]
          exact ⟨fun hc => hr hc.symm, h1⟩
        · rintro ⟨h1, h2⟩
          simp only [List.mem_cons, not_or] at h1
          exact ⟨h1.2, h2⟩

/-- Claim C4: `sample_measure` is `false` whenever `shots ≤ 1`; otherwise it
equals the config's `allows_measure_sampling` flag when that flag is present;
otherwise it is `true` iff the circuit contains no `reset` and every
instruction after the first `measure` is one of
`measure`, `barrier`, `id`, `u0`. -/
theorem sample_measure_decision (shots : Nat) (allows : Option Bool)
    (instrs : List String) :
    (shots ≤ 1 → validateMeasureSampling shots allows instrs = false) ∧
    (∀ b, 1 < shots → allows = some b →
      validateMeasureSampling shots allows instrs = b) ∧
    (1 < shots → allows = none →
      (validateMeasureSampling shots allows instrs = true ↔
        ("reset" ∉ instrs ∧ ∀ s ∈ afterFirstMeasure instrs, s ∈ allowedTail))) := by
  refine ⟨fun h => by simp [validateMeasureSampling, h], ?_, ?_⟩
  · rintro b h rfl
    simp [validateMeasureSampling, Nat.not_le.mpr h]
  · rintro h rfl
    rw [validateMeasureSampling, if_neg (Nat.not_le.mpr h)]
    exact scanSampling_false_iff instrs

theorem sample_measure_decision_witness :
    validateMeasureSampling 2 none ["u2", "measure", "barrier", "measure"] = true ∧
    validateMeasureSampling 1 none ["u2", "measure"] = false :=
  ⟨((sample_measure_decision 2 none ["u2", "measure", "barrier", "measure"]).2.2
      (by decide) rfl).mpr (by decide),
    (sample_measure_decision 1 none ["u2", "measure"]).1 (by decide)⟩

/-- Counterexample to claim C1: with classical memory 1, classical register 0,
mask 1, relation `==`, value 1, register target bit 0 and no memory target,
the code compares the classical REGISTER (`(0 & 1) - 1 = -1`, relation false,
register bit stays 0) while the claim's comparison against classical memory
(`(1 & 1) - 1 = 0`, relation true) would set register bit 0 to 1. -/
theorem bfunc_memory_comparison_cex :
    applyBfunc 1 0 1 "==" 1 0 none = .ok (1, 0) ∧
    applyBfuncClaimed 1 0 1 "==" 1 0 none = .ok (1, 1) := by
  constructor <;> rfl

/-- Claim C1 as amended: the comparison value is
`(classical_register & mask) - val`; the relation of it against zero gives
the outcome bit, which is masked-written into classical-register bit
`cregbit` (other register bits preserved) and, exactly when a `memory` field
is present, also masked-written into classical-memory bit `cmembit` (other
memory bits preserved). -/
theorem bfunc_semantics (cmem creg mask val cregbit : Nat)
    (cmembit : Option Nat) (relation : String) (outcome : Bool)
    (hrel : evalRelation relation (((creg &&& mask : Nat) : Int) - (val : Int))
      = .ok outcome) :
    ∃ cmem2 creg2,
      applyBfunc cmem creg mask relation val cregbit cmembit = .ok (cmem2, creg2) ∧
      creg2.testBit cregbit = outcome ∧
      (∀ j, j ≠ cregbit → creg2.testBit j = creg.testBit j) ∧
      (∀ mb, cmembit = some mb →
        cmem2.testBit mb = outcome ∧
        ∀ j, j ≠ mb → cmem2.testBit j = cmem.testBit j) ∧
      (cmembit = none → cmem2 = cmem) := by
  refine ⟨(match cmembit with
           | some mb => maskedWrite cmem mb outcome
           | none => cmem),
    maskedWrite creg cregbit outcome, ?_, ?_, ?_, ?_, ?_⟩
  · simp only [applyBfunc]
    rw [hrel]
  · simp [testBit_maskedWrite]
  · intro j hj
    simp [testBit_maskedWrite, hj]
  · rintro mb rfl
    exact ⟨by simp [testBit_maskedWrite],
      fun j hj => by simp [testBit_maskedWrite, hj]⟩
  · rintro rfl
    rfl

theorem bfunc_semantics_witness :
    ∃ cmem2 creg2, applyBfunc 0 5 7 "==" 5 2 (some 1) = .ok (cmem2, creg2) ∧
      cmem2.testBit 1 = true ∧ creg2.testBit 2 = true := by
  obtain ⟨cmem2, creg2, heq, hcreg, -, hmem, -⟩ :=
    bfunc_semantics 0 5 7 5 2 (some 1) "==" true (by rfl)
  exact ⟨cmem2, creg2, heq, (hmem 1 rfl).1, hcreg⟩

/-- Evaluation against claim C2: a parent instance that forked (children with
memories 0 and 1, its own frozen memory 0, one classical slot) produces the
memory list `[0, 1, 0]` — the parent's own word IS appended after the two
leaves, where the claim (and the design notes) say only the two leaves may
contribute. -/
theorem split_parent_appends_memory :
    collectShotMemory 1 (SplitTree.node 0 (SplitTree.leaf 0) (SplitTree.leaf 1))
      [] = [0, 1, 0] := rfl

/-- Counterexample to claim C5 for duplicate-qubit pair lists: measuring
qubit 0 into slots 0 and 1 with sample 1 (one distinct qubit, so the sample
only carries bit 0), the code writes sample bit 0 into slot 0 but sample
bit 1 — always zero — into slot 1, giving memory 1; the claim has the single
distinct qubit contribute its outcome bit to BOTH slots, giving 3. -/
theorem sample_expansion_duplicate_cex :
    expandSample 0 [(0, 0), (0, 1)] 1 = 1 ∧
    specExpandSample 0 [(0, 0), (0, 1)] 1 = 3 := by
  constructor <;> decide

theorem and_shiftLeft_one_shiftRight (s c : Nat) :
    (s &&& (1 <<< c)) >>> c = (s >>> c) &&& 1 := by
  apply Nat.eq_of_testBit_eq
  intro i
  have h1 : (1 : Nat) = 2 ^ 0 := rfl
  rw [Nat.testBit_shiftRight, Nat.testBit_land, one_shiftLeft_testBit,
    Nat.testBit_land, Nat.testBit_shiftRight, h1, Nat.testBit_two_pow]
  congr 1
  simp only [decide_eq_decide]
  omega

theorem expandLoop_eq_specLoop (sample : Nat) (qs : List Nat) :
    ∀ (l : List (Nat × Nat)) (count cmemAcc : Nat),
      (∀ (i : Nat) (h : i < l.length), qs.indexOf (l.get ⟨i, h⟩).1 = count + i) →
      expandSampleLoop sample l count cmemAcc = specExpandLoop sample qs l cmemAcc := by
  intro l
  induction l with
  | nil =>
    intro count cmemAcc _
    rfl
  | cons p rest ih =>
    intro count cmemAcc h
    obtain ⟨q, cmembit⟩ := p
    have h0 : qs.indexOf q = count := (h 0 (Nat.succ_pos _)).trans (by omega)
    simp only [expandSampleLoop, specExpandLoop]
    rw [and_shiftLeft_one_shiftRight, h0]
    refine ih (count + 1) _ (fun i hi => ?_)
    exact (h (i + 1) (Nat.succ_lt_succ hi)).trans (by omega)

/-- Claim C5 as amended: when the measure-pair list has pairwise distinct
qubits, each drawn sample index is expanded so that the i-th distinct
measured qubit (ascending by qubit index) contributes bit i of the sample to
its classical-memory slot, combined with the pre-existing classical memory;
for lists that measure the same qubit into several slots the code instead
assigns sample bit k to the k-th lexicographically sorted pair. -/
theorem sample_expansion_distinct (cmem sample : Nat) (pairs : List (Nat × Nat))
    (hnd : (pairs.map Prod.fst).Nodup) :
    expandSample cmem pairs sample = specExpandSample cmem pairs sample := by
  have hperm : (sortPairs pairs).Perm pairs := List.perm_insertionSort pairLe pairs
  have hmap : ((sortPairs pairs).map Prod.fst).Perm (pairs.map Prod.fst) :=
    hperm.map Prod.fst
  have hsnd : ((sortPairs pairs).map Prod.fst).Nodup := hmap.nodup_iff.mpr hnd
  have hded : distinctSortedQubits pairs = (sortPairs pairs).map Prod.fst :=
    List.dedup_eq_self.mpr hsnd
  rw [expandSample, specExpandSample, hded]
  apply expandLoop_eq_specLoop
  intro i hi
  have hlen : i < ((sortPairs pairs).map Prod.fst).length := by simpa using hi
  have hget : ((sortPairs pairs).map Prod.fst).get ⟨i, hlen⟩
      = ((sortPairs pairs).get ⟨i, hi⟩).1 := by
    simp
  have hidx := List.get_indexOf hsnd ⟨i, hlen⟩
  rw [hget] at hidx
  simpa using hidx

theorem sample_expansion_distinct_witness :
    expandSample 0 [(1, 0), (0, 1)] 2 = specExpandSample 0 [(1, 0), (0, 1)] 2 ∧
    expandSample 0 [(1, 0), (0, 1)] 2 = 1 :=
  ⟨sample_expansion_distinct 0 2 [(1, 0), (0, 1)] (by decide), by decide⟩

/-- Claim C8: when an initial statevector `v` is provided (via backend options
or qobj config), the run fails with `notNormalised` when the L2 norm of `v`
rounded to 12 decimals differs from 1, fails with `dimensionMismatch` when
(the norm check passing) its length differs from `2 ^ n`, and when both
checks pass the provided vector is the start state of every shot. -/
theorem initial_statevector_validation (backendOpt qobjOpt : Option (List ℂ))
    (v : List ℂ) (n shots : Nat)
    (hres : resolveInitialStatevector backendOpt qobjOpt = some v) :
    (round12 (l2norm v) ≠ 1 →
      runExperimentStart backendOpt qobjOpt n shots = .error .notNormalised) ∧
    (round12 (l2norm v) = 1 → v.length ≠ 2 ^ n →
      runExperimentStart backendOpt qobjOpt n shots = .error .dimensionMismatch) ∧
    (round12 (l2norm v) = 1 → v.length = 2 ^ n →
      runExperimentStart backendOpt qobjOpt n shots
          = .ok (List.replicate shots v) ∧
        ∀ sv ∈ List.replicate shots v, sv = v) := by
  refine ⟨?_, ?_, ?_⟩
  · intro hnorm
    simp only [runExperimentStart, hres, checkNormalized, if_neg hnorm]
  · intro hnorm hdim
    simp only [runExperimentStart, hres, checkNormalized, if_pos hnorm,
      validateInitialStatevector, if_neg hdim]
  · intro hnorm hdim
    refine ⟨?_, fun sv hsv => List.eq_of_mem_replicate hsv⟩
    simp only [runExperimentStart, hres, checkNormalized, if_pos hnorm,
      validateInitialStatevector, if_pos hdim, initializeStatevector]

theorem initial_statevector_validation_witness :
    runExperimentStart (some [(1 : ℂ), 0]) none 1 2
      = .ok (List.replicate 2 [(1 : ℂ), 0]) := by
  have hnorm : round12 (l2norm [(1 : ℂ), 0]) = 1 := by
    have h1 : l2norm [(1 : ℂ), 0] = 1 := by
      simp [l2norm]
    rw [h1, round12, one_mul]
    have h2 : ((10 : ℝ) ^ 12) = ((10 ^ 12 : ℤ) : ℝ) := by push_cast; ring
    rw [h2, round_intCast]
    norm_num
  exact ((initial_statevector_validation (some [(1 : ℂ), 0]) none [(1 : ℂ), 0]
    1 2 rfl).2.2 hnorm (by decide)).1

/-- Claim C3: the one-qubit apply fails with `InvalidInstruction` whenever
`qubit ≥ n`, and the two-qubit apply fails with `InvalidInstruction` whenever
the two qubit indices coincide or either is `≥ n`. -/
theorem gate_application_rejects_invalid (n qubit qubit0 qubit1 : Nat)
    (g : Bool → Bool → ℂ) (g2 : Bool × Bool → Bool × Bool → ℂ) (ψ : Nat → ℂ) :
    (n ≤ qubit →
      addUnitarySingle n g qubit ψ = .error .invalidInstruction) ∧
    (qubit0 = qubit1 ∨ n ≤ qubit0 ∨ n ≤ qubit1 →
      addUnitaryTwo n g2 qubit0 qubit1 ψ = .error .invalidInstruction) := by
  constructor
  · intro h
    simp only [addUnitarySingle, validateGateIndices]
    rw [if_pos (by simpa using h)]
  · intro h
    simp only [addUnitaryTwo, validateGateIndices]
    by_cases hr : [qubit0, qubit1].any (fun q => n ≤ q)
    · rw [if_pos hr]
    · have hlt : ¬ (n ≤ qubit0) ∧ ¬ (n ≤ qubit1) := by
        simpa using hr
      have heq : qubit0 = qubit1 := by tauto
      rw [if_neg hr, if_neg (by simp [heq])]

theorem gate_application_rejects_invalid_witness :
    addUnitarySingle 1 (fun _ _ => 0) 1 (fun _ => 0)
        = .error .invalidInstruction ∧
    addUnitaryTwo 1 (fun _ _ => 0) 0 0 (fun _ => 0)
        = .error .invalidInstruction :=
  ⟨(gate_application_rejects_invalid 1 1 0 0 (fun _ _ => 0) (fun _ _ => 0)
      (fun _ => 0)).1 (by decide),
   (gate_application_rejects_invalid 1 1 0 0 (fun _ _ => 0) (fun _ _ => 0)
      (fun _ => 0)).2 (Or.inl rfl)⟩

theorem maskedWrite_eq_self (i qubit : Nat) (o : Bool)
    (h : i.testBit qubit = o) : maskedWrite i qubit o = i := by
  apply Nat.eq_of_testBit_eq
  intro j
  rw [testBit_maskedWrite]
  rcases eq_or_ne j qubit with rfl | hj
  · simp [h]
  · simp [hj]

theorem maskedWrite_maskedWrite (i qubit : Nat) (o o2 : Bool) :
    maskedWrite (maskedWrite i qubit o) qubit o2 = maskedWrite i qubit o2 := by
  apply Nat.eq_of_testBit_eq
  intro j
  rw [testBit_maskedWrite, testBit_maskedWrite, testBit_maskedWrite]
  rcases eq_or_ne j qubit with rfl | hj
  · simp
  · simp [hj]

theorem maskedWrite_lt_two_pow (i qubit n : Nat) (o : Bool) (hi : i < 2 ^ n)
    (hq : qubit < n) : maskedWrite i qubit o < 2 ^ n := by
  apply Nat.lt_pow_two_of_testBit
  intro j hj
  rw [testBit_maskedWrite, if_neg (by omega : j ≠ qubit)]
  exact Nat.testBit_eq_false_of_lt
    (lt_of_lt_of_le hi (Nat.pow_le_pow_right (by norm_num) hj))

theorem getMeasureOutcome_snd (n qubit : Nat) (ψ : Nat → ℂ) (u : ℝ) :
    (getMeasureOutcome n qubit ψ u).2
      = measureProb n qubit ψ (getMeasureOutcome n qubit ψ u).1 := by
  unfold getMeasureOutcome
  split <;> rfl

/-- Claim C7: for `qubit < n`, when the sampled outcome has nonzero
probability `p`, reset applies `[[1/sqrt(p),0],[0,0]]` (outcome 0) or
`[[0,1/sqrt(p)],[0,0]]` (outcome 1), after which every amplitude whose basis
index has bit `qubit` set is zero and the state vector has unit norm; reset
writes no classical bits. -/
theorem reset_semantics (n qubit : Nat) (ψ : Nat → ℂ) (u : ℝ) (cmem creg : Nat)
    (hq : qubit < n) (hp : 0 < (getMeasureOutcome n qubit ψ u).2) :
    (∀ i, i.testBit qubit = true → addQasmReset n qubit ψ u i = 0) ∧
    (∑ i ∈ Finset.range (2 ^ n),
      Complex.normSq (addQasmReset n qubit ψ u i)) = 1 ∧
    (resetStep n qubit ψ u cmem creg).2 = (cmem, creg) := by
  have hcol : ∀ i, i.testBit qubit = true → addQasmReset n qubit ψ u i = 0 := by
    intro i hi
    simp [addQasmReset, applySingle, resetGate, hi]
  refine ⟨hcol, ?_, rfl⟩
  have hpm : (getMeasureOutcome n qubit ψ u).2
      = measureProb n qubit ψ (getMeasureOutcome n qubit ψ u).1 :=
    getMeasureOutcome_snd n qubit ψ u
  set o := (getMeasureOutcome n qubit ψ u).1 with ho
  set p := (getMeasureOutcome n qubit ψ u).2 with hpdef
  have hsq : (1 / Real.sqrt p) * (1 / Real.sqrt p) = 1 / p := by
    rw [div_mul_div_comm, one_mul, Real.mul_self_sqrt hp.le]
  rw [← Finset.sum_filter_add_sum_filter_not (Finset.range (2 ^ n))
    (fun i => i.testBit qubit = false)]
  have hzero : (∑ i ∈ (Finset.range (2 ^ n)).filter
      (fun i => ¬ (i.testBit qubit = false)),
      Complex.normSq (addQasmReset n qubit ψ u i)) = 0 := by
    apply Finset.sum_eq_zero
    intro i hi
    rw [Finset.mem_filter] at hi
    rw [hcol i (by simpa using hi.2)]
    simp
  rw [hzero, add_zero]
  cases hoc : o with
  | false =>
    have hsum : ∀ i ∈ (Finset.range (2 ^ n)).filter
        (fun i => i.testBit qubit = false),
        Complex.normSq (addQasmReset n qubit ψ u i)
          = (1 / p) * Complex.normSq (ψ i) := by
      intro i hi
      rw [Finset.mem_filter] at hi
      have hb := hi.2
      have hval : addQasmReset n qubit ψ u i
          = ((1 / Real.sqrt p : ℝ) : ℂ) * ψ i := by
        rw [addQasmReset, applySingle, ← ho, ← hpdef, hoc,
          maskedWrite_eq_self i qubit false hb]
        simp [resetGate, hb]
      rw [hval, Complex.normSq_mul, Complex.normSq_ofReal, hsq]
    rw [Finset.sum_congr rfl hsum, ← Finset.mul_sum]
    have hmp : measureProb n qubit ψ false = p := by
      rw [hpm, hoc]
    rw [show (∑ i ∈ (Finset.range (2 ^ n)).filter
        (fun i => i.testBit qubit = false), Complex.normSq (ψ i))
      = measureProb n qubit ψ false from rfl, hmp]
    exact one_div_mul_cancel hp.ne'
  | true =>
    have hsum : ∀ i ∈ (Finset.range (2 ^ n)).filter
        (fun i => i.testBit qubit = false),
        Complex.normSq (addQasmReset n qubit ψ u i)
          = (1 / p) * Complex.normSq (ψ (maskedWrite i qubit true)) := by
      intro i hi
      rw [Finset.mem_filter] at hi
      have hb := hi.2
      have hval : addQasmReset n qubit ψ u i
          = ((1 / Real.sqrt p : ℝ) : ℂ) * ψ (maskedWrite i qubit true) := by
        rw [addQasmReset, applySingle, ← ho, ← hpdef, hoc]
        simp [resetGate, hb]
      rw [hval, Complex.normSq_mul, Complex.normSq_ofReal, hsq]
    rw [Finset.sum_congr rfl hsum, ← Finset.mul_sum]
    have hbij : (∑ i ∈ (Finset.range (2 ^ n)).filter
        (fun i => i.testBit qubit = false),
        Complex.normSq (ψ (maskedWrite i qubit true)))
      = ∑ j ∈ (Finset.range (2 ^ n)).filter
        (fun j => j.testBit qubit = true), Complex.normSq (ψ j) := by
      apply Finset.sum_nbij' (fun i => maskedWrite i qubit true)
        (fun j => maskedWrite j qubit false)
      · intro a ha
        rw [Finset.mem_filter] at ha ⊢
        exact ⟨Finset.mem_range.mpr (maskedWrite_lt_two_pow a qubit n true
          (Finset.mem_range.mp ha.1) hq), by rw [testBit_maskedWrite]; simp⟩
      · intro a ha
        rw [Finset.mem_filter] at ha ⊢
        exact ⟨Finset.mem_range.mpr (maskedWrite_lt_two_pow a qubit n false
          (Finset.mem_range.mp ha.1) hq), by rw [testBit_maskedWrite]; simp⟩
      · intro a ha
        rw [Finset.mem_filter] at ha
        rw [maskedWrite_maskedWrite]
        exact maskedWrite_eq_self a qubit false ha.2
      · intro a ha
        rw [Finset.mem_filter] at ha
        rw [maskedWrite_maskedWrite]
        exact maskedWrite_eq_self a qubit true ha.2
      · intro a _
        rfl
    rw [hbij]
    have hmp : measureProb n qubit ψ true = p := by
      rw [hpm, hoc]
    rw [show (∑ j ∈ (Finset.range (2 ^ n)).filter
        (fun j => j.testBit qubit = true), Complex.normSq (ψ j))
      = measureProb n qubit ψ true from rfl, hmp]
    exact one_div_mul_cancel hp.ne'

theorem reset_semantics_witness :
    addQasmReset 1 0 resetWitnessState 0 1 = 0 ∧
    (∑ i ∈ Finset.range (2 ^ 1),
      Complex.normSq (addQasmReset 1 0 resetWitnessState 0 i)) = 1 := by
  have hf : measureProb 1 0 resetWitnessState false = 0 := by
    rw [measureProb, show (Finset.range (2 ^ 1)).filter
      (fun i => i.testBit 0 = false) = {0} from by decide]
    simp [resetWitnessState]
  have ht : measureProb 1 0 resetWitnessState true = 1 := by
    rw [measureProb, show (Finset.range (2 ^ 1)).filter
      (fun i => i.testBit 0 = true) = {1} from by decide]
    simp [resetWitnessState]
  have hgmo : getMeasureOutcome 1 0 resetWitnessState 0 = (true, 1) := by
    rw [getMeasureOutcome, hf, if_neg (lt_irrefl (0 : ℝ)), ht]
  have h := reset_semantics 1 0 resetWitnessState 0 0 0 (by decide)
    (by rw [hgmo]; norm_num)
  exact ⟨h.1 1 (by decide), h.2.1⟩

end QasmSim
